import Mathlib

/-!
Shallow embedding of the multi-tier cache coordinator (go-cache).

Go strings are embedded as `List Char`, byte slices as `List Nat`,
`interface{}` payloads as an opaque index type.  Go functions that return
`(T, error)` pairs are embedded as Lean pairs `T × Option Err`; functions
whose Go counterpart returns `error`-or-value through an early return are
embedded as `Except Err T`.  Adapters (cache tiers) are records of pure
functions; the order of tier calls and eviction broadcasts is made
observable through an explicit effect trace.
-/

set_option autoImplicit false

namespace GoCache

/-- Go `string`, embedded at character granularity. -/
abbrev GoStr := List Char

/-- Go `[]byte`. -/
abbrev Bytes := List Nat

/-- Opaque embedding of Go `interface{}` payload values. -/
abbrev IVal := Nat

/-- `Value` returned by `Adapter.MGet` (adapter.go): `Valid` stands for
existing in cache or not, `Bytes` is the raw payload. -/
structure Value where
  valid : Bool
  bytes : Bytes
deriving DecidableEq, Repr

/-- The zero Go `Value{}`: invalid, nil bytes. -/
def Value.zero : Value := ⟨false, []⟩

/-- The error values the coordinator can produce or pass through. Named
errors mirror the package-level `Err...` variables; `transport` and
`marshalFail` stand for opaque adapter / codec errors. -/
inductive Err where
  | pfxNotRegistered
  | cacheMiss
  | mGetterResponseNotSlice
  | mGetterResponseLengthInvalid
  | resultIndexInvalid
  | emptyPfx
  | duplicatedPfx
  | asymCodec
  | noCacheType
  | transport (code : Nat)
  | marshalFail (code : Nat)
deriving DecidableEq, Repr

/-- First-match association-list lookup; embeds Go `map` reads (entries are
consed at the head on write, so the first match is the latest write). -/
def alookup {β : Type} : List (GoStr × β) → GoStr → Option β
  | [], _ => none
  | (k, v) :: rest, a => if k = a then some v else alookup rest a

/-- Position of the first occurrence of `a` in `l`, if any. -/
def idxOf? : List GoStr → GoStr → Option Nat
  | [], _ => none
  | k :: rest, a => if k = a then some 0 else (idxOf? rest a).map (· + 1)

/-- Loop of `getKeyIndex` (cache.go): `keyIdx[k] = i` for each key in
order; writes cons at the head, so a later duplicate overwrites. -/
def getKeyIndexFrom (i : Nat) : List GoStr → List (GoStr × Nat) → List (GoStr × Nat)
  | [], m => m
  | k :: ks, m => getKeyIndexFrom (i + 1) ks ((k, i) :: m)

/-- `getKeyIndex` (cache.go): builds `map[string]int` sending each key to
its index (the last index for duplicates). -/
def getKeyIndex (keys : List GoStr) : List (GoStr × Nat) :=
  getKeyIndexFrom 0 keys []

/-! ### Key namespacing (key.go) -/

/-- `cacheDelim = ":"`; a single character, so `strings.Index` with this
delimiter is first-occurrence character search. -/
def cacheDelim : Char := ':'

/-- `customKey` (key.go): `strings.Join(components, delimiter)`,
specialised to the one-character cache delimiter. -/
def customKey (components : List GoStr) : GoStr :=
  (components.intersperse [cacheDelim]).flatten

/-- `getCacheKey` (key.go): `[regPkgKey ':'] pfx ':' key`. The process-wide
`regPkgKey` is passed explicitly. -/
def getCacheKey (regPkgKey pfx key : GoStr) : GoStr :=
  if regPkgKey = [] then customKey [pfx, key]
  else customKey [regPkgKey, pfx, key]

/-- `getCacheKeys` (key.go). -/
def getCacheKeys (regPkgKey pfx : GoStr) (keys : List GoStr) : List GoStr :=
  keys.map (getCacheKey regPkgKey pfx)

/-- Position of the first occurrence of a character in a string. -/
def charIdx? : GoStr → Char → Option Nat
  | [], _ => none
  | c :: rest, a => if c = a then some 0 else (charIdx? rest a).map (· + 1)

/-- `strings.Index(s, ":")` ≥ 0 branch: position of the first delimiter. -/
def delimIdx (s : GoStr) : Option Nat := charIdx? s cacheDelim

/-- `getPrefixAndKey` (key.go): splits a fully-qualified cache key back
into `(prefix, key)`, dropping the package segment when `regPkgKey` is
non-empty. -/
def getPrefixAndKey (regPkgKey : GoStr) (cacheKey : GoStr) : GoStr × GoStr :=
  match delimIdx cacheKey with
  | none => (cacheKey, [])
  | some idx =>
    if regPkgKey = [] then (cacheKey.take idx, cacheKey.drop (idx + 1))
    else
      let mixedKey := cacheKey.drop (idx + 1)
      match delimIdx mixedKey with
      | none => (mixedKey, [])
      | some idx2 => (mixedKey.take idx2, mixedKey.drop (idx2 + 1))

/-! ### Dedup (cache.go) -/

/-- Loop body of `dedup` (cache.go), recursing over the remaining params
and carrying the `m : map[string]int` and `dedupedKeys` accumulators; the
returned first component is the `dedupedIdx` entries for the remaining
params in order. -/
def dedupAux : List GoStr → List (GoStr × Nat) → List GoStr → List Nat × List GoStr
  | [], _, dkeys => ([], dkeys)
  | p :: ps, m, dkeys =>
    match alookup m p with
    | some j =>
      let r := dedupAux ps m dkeys
      (j :: r.1, r.2)
    | none =>
      let r := dedupAux ps ((p, dkeys.length) :: m) (dkeys ++ [p])
      (dkeys.length :: r.1, r.2)

/-- `dedup` (cache.go): single-key fast path, then the accumulation loop.
The Go `dedupedIdx : map[int]int` has domain exactly `0..len-1` filled in
order, so it is embedded as the list of its values. -/
def dedup (params : List GoStr) : List Nat × List GoStr :=
  if params.length = 1 then ([0], params)
  else dedupAux params [] []

/-- Specification helper: first-occurrence-order deduplication of a list,
relative to an already-seen prefix of deduped keys. -/
def firstOccurFrom (seen : List GoStr) : List GoStr → List GoStr
  | [] => []
  | p :: ps =>
    if p ∈ seen then firstOccurFrom seen ps
    else p :: firstOccurFrom (seen ++ [p]) ps

/-- First-occurrence-order deduplication of a list. -/
def firstOccur (l : List GoStr) : List GoStr := firstOccurFrom [] l

/-! ### Adapters, configuration and effect traces -/

/-- A cache tier (`Adapter` in adapter.go), embedded as pure functions.
`mget` returns the Go pair `([]Value, error)`; `mset`/`del` return the
`error` slot. -/
structure Adapter where
  mget : List GoStr → List Value × Option Err
  mset : List (GoStr × Bytes) → Nat → Option Err
  del : List GoStr → Option Err

/-- Go `interface{}` as returned by an `MGetterFunc`: either a slice
(reflect.Kind == Slice) or anything else. -/
inductive GoAny where
  | slice (xs : List IVal)
  | nonSlice (v : IVal)

/-- Per-prefix `config` (cache.go). The Go field `local` is a Lean
keyword, hence `localAdp`. -/
structure Config where
  shared : Option Adapter
  localAdp : Option Adapter
  sharedTTL : Nat
  localTTL : Nat
  mGetter : Option (List GoStr → GoAny × Option Err)
  marshal : IVal → Except Err Bytes
  unmarshal : Bytes → Except Err IVal

/-- Observable tier / broadcast calls, in program order. -/
inductive Eff where
  | localMGet (keys : List GoStr)
  | sharedMGet (keys : List GoStr)
  | localMSet (kvs : List (GoStr × Bytes))
  | sharedMSet (kvs : List (GoStr × Bytes))
  | localDel (keys : List GoStr)
  | sharedDel (keys : List GoStr)
  | evict (keys : List GoStr)
deriving DecidableEq, Repr

abbrev Trace := List Eff

/-- `evictRemoteKeys` (cache.go): broadcast an Evict event, a no-op when
the message broker has no pubsub registered. -/
def evictRemoteKeys (reg : Bool) (keys : List GoStr) : Trace :=
  if reg then [Eff.evict keys] else []

/-- `evictRemoteKeyMap` (cache.go): broadcast for a key-bytes map's keys. -/
def evictRemoteKeyMap (reg : Bool) (m : List (GoStr × Bytes)) : Trace :=
  evictRemoteKeys reg (m.map Prod.fst)

/-! ### load / refill / del (cache.go) -/

/-- Step 1 of `load`: consult the local tier when configured, discarding
its error (`vals, _ = cfg.local.MGet(...)`), and recompute the miss keys
by iterating over whatever value slice came back (`for i, val := range
vals`), pairing positions with the requested keys. -/
def localLoad (cfg : Config) (keys : List GoStr) :
    List Value × List GoStr × Trace :=
  match cfg.localAdp with
  | none => (List.replicate keys.length Value.zero, keys, [])
  | some la =>
    let vs := (la.mget keys).1
    (vs, (((vs.zip keys).filter (fun p => !p.1.valid)).map Prod.snd,
      [Eff.localMGet keys]))

/-- Step 2 merge of `load`: `vals[keyIdx[missKeys[i]]] = mVal` for each
returned shared value, positionally zipped with the miss keys. Out-of-range
writes (a Go panic) are no-ops here. -/
def mergeShared (keyIdx : List (GoStr × Nat)) (vals : List Value)
    (missVals : List Value) (missKeys : List GoStr) : List Value :=
  (missVals.zip missKeys).foldl
    (fun vs p => vs.set ((alookup keyIdx p.2).getD 0) p.1) vals

/-- Step 3 of `load`: the key-bytes map refilled into the local tier,
collecting `m[k] = vals[keyIdx[k]].Bytes` for the now-valid keys (map
semantics: a key already present is not duplicated). -/
def localRefillMap (keyIdx : List (GoStr × Nat)) (vals : List Value)
    (keys : List GoStr) : List (GoStr × Bytes) :=
  keys.foldl
    (fun m k =>
      let val := vals.getD ((alookup keyIdx k).getD 0) Value.zero
      if val.valid ∧ alookup m k = none then m ++ [(k, val.bytes)] else m)
    []

/-- `load` (cache.go): local tier (errors tolerated), early return when no
miss, shared tier (errors surfaced), local refill (result ignored) plus
Evict broadcast. Returns the Go `([]Value, error)` and the effect trace. -/
def load (reg : Bool) (cfg : Config) (keys : List GoStr) :
    Except Err (List Value) × Trace :=
  let keyIdx := getKeyIndex keys
  let s1 := localLoad cfg keys
  let vals1 := s1.1
  let miss1 := s1.2.1
  let tr1 := s1.2.2
  if miss1 = [] then (Except.ok vals1, tr1)
  else
    match cfg.shared with
    | none =>
      match cfg.localAdp with
      | none => (Except.ok vals1, tr1)
      | some _ =>
        let m := localRefillMap keyIdx vals1 keys
        if m = [] then (Except.ok vals1, tr1)
        else (Except.ok vals1,
          tr1 ++ Eff.localMSet m :: evictRemoteKeyMap reg m)
    | some sa =>
      let r := sa.mget miss1
      match r.2 with
      | some e => (Except.error e, tr1 ++ [Eff.sharedMGet miss1])
      | none =>
        let vals2 := mergeShared keyIdx vals1 r.1 miss1
        match cfg.localAdp with
        | none => (Except.ok vals2, tr1 ++ [Eff.sharedMGet miss1])
        | some _ =>
          let m := localRefillMap keyIdx vals2 keys
          if m = [] then (Except.ok vals2, tr1 ++ [Eff.sharedMGet miss1])
          else (Except.ok vals2,
            tr1 ++ Eff.sharedMGet miss1 :: Eff.localMSet m ::
              evictRemoteKeyMap reg m)

/-- Local half of `refill` (cache.go): a local `MSet` error is swallowed
by an early `return nil`, skipping the Evict broadcast; on success the
broadcast follows. -/
def refillLocal (reg : Bool) (cfg : Config) (kb : List (GoStr × Bytes)) :
    Option Err × Trace :=
  match cfg.localAdp with
  | none => (none, [])
  | some la =>
    match la.mset kb cfg.localTTL with
    | some _ => (none, [Eff.localMSet kb])
    | none => (none, Eff.localMSet kb :: evictRemoteKeyMap reg kb)

/-- `refill` (cache.go): shared tier first (errors abort), then the local
tier. -/
def refill (reg : Bool) (cfg : Config) (kb : List (GoStr × Bytes)) :
    Option Err × Trace :=
  match cfg.shared with
  | none => refillLocal reg cfg kb
  | some sa =>
    match sa.mset kb cfg.sharedTTL with
    | some e => (some e, [Eff.sharedMSet kb])
    | none =>
      let r := refillLocal reg cfg kb
      (r.1, Eff.sharedMSet kb :: r.2)

/-- `del` (cache.go): shared delete first (errors abort), then local
delete (errors propagate), then the Evict broadcast. -/
def delCore (reg : Bool) (cfg : Config) (keys : List GoStr) :
    Option Err × Trace :=
  let localPart : Option Err × Trace :=
    match cfg.localAdp with
    | none => (none, [])
    | some la =>
      match la.del keys with
      | some e => (some e, [Eff.localDel keys])
      | none => (none, Eff.localDel keys :: evictRemoteKeys reg keys)
  match cfg.shared with
  | none => localPart
  | some sa =>
    match sa.del keys with
    | some e => (some e, [Eff.sharedDel keys])
    | none => (localPart.1, Eff.sharedDel keys :: localPart.2)

/-! ### Result and MGet (cache.go) -/

/-- The `result` struct (cache.go). `internalIdx : map[int]int` has domain
exactly `0..len-1`, so it is embedded as the list of its values;
`unmarshal` is carried along for `Get`. -/
structure ResultR where
  internalIdx : List Nat
  vals : List Bytes
  errs : List (Option Err)
  unmarshal : Bytes → Except Err IVal

/-- `result.Len` (cache.go): the number of `internalIdx` entries. -/
def resultLen (r : ResultR) : Nat := r.internalIdx.length

/-- `result.Get` (cache.go): bounds check, then route through
`internalIdx` to the slot's error or unmarshalled value. The Go map read
`r.internalIdx[idx]` defaults to 0 when absent; slice reads out of range
(a Go panic) default here. -/
def resultGet (r : ResultR) (idx : Int) : Except Err IVal :=
  if idx < 0 ∨ resultLen r ≤ idx then Except.error Err.resultIndexInvalid
  else
    let j := (r.internalIdx.get? idx.toNat).getD 0
    match (r.errs.getD j none) with
    | some e => Except.error e
    | none => r.unmarshal (r.vals.getD j [])

/-- The miss-fill loop of `MGet` (cache.go): for each `(mk, result[i])`,
marshal; on error set that slot's error and continue; on success extend
the refill map, overwrite the slot's bytes and clear its error. -/
def fillMiss (marshal : IVal → Except Err Bytes) (regPkgKey pfx : GoStr)
    (keyIdx : List (GoStr × Nat)) :
    List (GoStr × IVal) → List (GoStr × Bytes) → ResultR →
      List (GoStr × Bytes) × ResultR
  | [], m, res => (m, res)
  | (mk, v) :: rest, m, res =>
    let j := (alookup keyIdx mk).getD 0
    match marshal v with
    | Except.error e =>
      fillMiss marshal regPkgKey pfx keyIdx rest m
        { res with errs := res.errs.set j (some e) }
    | Except.ok b =>
      fillMiss marshal regPkgKey pfx keyIdx rest
        (m ++ [(getCacheKey regPkgKey pfx mk, b)])
        { res with vals := res.vals.set j b, errs := res.errs.set j none }

/-- The `cache` struct's process context: the per-prefix config map, the
message-broker registration flag and the process-wide package key. -/
structure CacheM where
  configs : List (GoStr × Config)
  reg : Bool
  regPkgKey : GoStr

/-- Classification of the cache values fetched by `load` inside `MGet`:
the hit/miss population of the result slots (`res.errs[i] = ErrCacheMiss`
on miss, `res.vals[i] = cacheVals[i].Bytes` on hit). -/
def hitMissSlots (cacheVals : List Value) (n : Nat) :
    List Bytes × List (Option Err) :=
  ((List.range n).map
      (fun i =>
        if (cacheVals.getD i Value.zero).valid
        then (cacheVals.getD i Value.zero).bytes else []),
    (List.range n).map
      (fun i =>
        if (cacheVals.getD i Value.zero).valid then none
        else some Err.cacheMiss))

/-- The miss keys computed by `MGet` (cache.go) after `load`: the deduped
keys whose cache value is invalid. A short `cacheVals` (a Go panic at
`cacheVals[i]`) reads as invalid here. -/
def mgetMissKeys (dKeys : List GoStr) (cacheVals : List Value) :
    List GoStr :=
  (dKeys.enum.filter
    (fun p => !(cacheVals.getD p.1 Value.zero).valid)).map Prod.snd

/-- Steps 2–3 of `MGet` (cache.go): invoke the configured `mGetter` on
the miss keys, enforce the slice/length contract, fill the per-element
slots and refill best-effort (the refill error is dropped). -/
def mgetFill (c : CacheM) (cfg : Config) (pfx : GoStr)
    (dKeys missKeys : List GoStr) (res1 : ResultR) :
    Except Err ResultR × Trace :=
  match cfg.mGetter with
  | none => (Except.ok res1, [])
  | some g =>
    let gr := g missKeys
    match gr.2 with
    | some e => (Except.error e, [])
    | none =>
      match gr.1 with
      | GoAny.nonSlice _ => (Except.error Err.mGetterResponseNotSlice, [])
      | GoAny.slice xs =>
        if xs.length ≠ missKeys.length then
          (Except.error Err.mGetterResponseLengthInvalid, [])
        else
          let f := fillMiss cfg.marshal c.regPkgKey pfx
            (getKeyIndex dKeys) (missKeys.zip xs) [] res1
          let rf := refill c.reg cfg f.1
          (Except.ok f.2, rf.2)

/-- `MGet` (cache.go): config lookup, empty-input fast path, dedup, load,
hit/miss population, then the optional mGetter miss-fill with its
contract checks and best-effort refill. -/
def cacheMGet (c : CacheM) (pfx : GoStr) (keys : List GoStr) :
    Except Err ResultR × Trace :=
  match alookup c.configs pfx with
  | none => (Except.error Err.pfxNotRegistered, [])
  | some cfg =>
    if keys = [] then (Except.ok ⟨[], [], [], cfg.unmarshal⟩, [])
    else
      let d := dedup keys
      let dKeys := d.2
      let cacheKeys := getCacheKeys c.regPkgKey pfx dKeys
      let l := load c.reg cfg cacheKeys
      match l.1 with
      | Except.error e => (Except.error e, l.2)
      | Except.ok cacheVals =>
        let slots := hitMissSlots cacheVals dKeys.length
        let res1 : ResultR := ⟨d.1, slots.1, slots.2, cfg.unmarshal⟩
        let missKeys := mgetMissKeys dKeys cacheVals
        if missKeys = [] then (Except.ok res1, l.2)
        else
          let fr := mgetFill c cfg pfx dKeys missKeys res1
          (fr.1, l.2 ++ fr.2)

/-- `GetByFunc` (cache.go), with the single-flight wrapper elided (it
coalesces concurrent callers; sequentially it runs the closure once):
load the one key; on hit unmarshal; on miss run the one-time getter,
marshal, refill (errors surfaced here), unmarshal. -/
def cacheGetByFunc (c : CacheM) (pfx key : GoStr)
    (getter : Unit → Except Err IVal) : Except Err IVal × Trace :=
  match alookup c.configs pfx with
  | none => (Except.error Err.pfxNotRegistered, [])
  | some cfg =>
    let cacheKey := getCacheKey c.regPkgKey pfx key
    let l := load c.reg cfg [cacheKey]
    match l.1 with
    | Except.error e => (Except.error e, l.2)
    | Except.ok cacheVals =>
      if (cacheVals.getD 0 Value.zero).valid then
        (cfg.unmarshal (cacheVals.getD 0 Value.zero).bytes, l.2)
      else
        match getter () with
        | Except.error e => (Except.error e, l.2)
        | Except.ok intf =>
          match cfg.marshal intf with
          | Except.error e => (Except.error e, l.2)
          | Except.ok b =>
            let rf := refill c.reg cfg [(cacheKey, b)]
            match rf.1 with
            | some e => (Except.error e, l.2 ++ rf.2)
            | none => (cfg.unmarshal b, l.2 ++ rf.2)

/-! ### Factory registration (factory.go) -/

/-- A `Setting` (config.go): the `CacheAttributes` map from the two-valued
tier-kind enum is embedded as the pair of its optional entries. -/
structure Setting where
  pfx : GoStr
  sharedAttrTTL : Option Nat
  localAttrTTL : Option Nat
  mGetter : Option (List GoStr → GoAny × Option Err)
  marshalFunc : Option (IVal → Except Err Bytes)
  unmarshalFunc : Option (Bytes → Except Err IVal)

/-- The factory fields `NewCache` consults. -/
structure FactoryM where
  sharedCache : Option Adapter
  localCache : Option Adapter
  marshal : IVal → Except Err Bytes
  unmarshal : Bytes → Except Err IVal

/-- The shared tier a setting binds: the factory's shared adapter when
the setting's `CacheAttributes` map has a `SharedCacheType` entry. -/
def boundShared (f : FactoryM) (s : Setting) : Option Adapter :=
  match s.sharedAttrTTL with
  | some _ => f.sharedCache
  | none => none

/-- The local tier a setting binds. -/
def boundLocal (f : FactoryM) (s : Setting) : Option Adapter :=
  match s.localAttrTTL with
  | some _ => f.localCache
  | none => none

/-- One iteration of `NewCache`'s settings loop (factory.go): prefix
checks (empty, duplicate), registry insertion, symmetric-codec check,
tier binding from the factory's adapters, at-least-one-tier check. Go
panics are embedded as `Except.error`. Returns the updated registry and
the new config entry. -/
def newCacheStep (f : FactoryM) (used : List GoStr) (s : Setting) :
    Except Err (List GoStr × (GoStr × Config)) :=
  if s.pfx = [] then Except.error Err.emptyPfx
  else if s.pfx ∈ used then Except.error Err.duplicatedPfx
  else
    let used1 := s.pfx :: used
    if s.marshalFunc.isNone ∧ s.unmarshalFunc.isSome then
      Except.error Err.asymCodec
    else if s.marshalFunc.isSome ∧ s.unmarshalFunc.isNone then
      Except.error Err.asymCodec
    else
      let cfg : Config :=
        { shared := boundShared f s
          localAdp := boundLocal f s
          sharedTTL := (s.sharedAttrTTL).getD 0
          localTTL := (s.localAttrTTL).getD 0
          mGetter := s.mGetter
          marshal := (s.marshalFunc).getD f.marshal
          unmarshal := (s.unmarshalFunc).getD f.unmarshal }
      if cfg.shared.isNone ∧ cfg.localAdp.isNone then
        Except.error Err.noCacheType
      else Except.ok (used1, (s.pfx, cfg))

/-! ### Concrete adapters and configs used to instantiate theorems -/

/-- Test adapter: always succeeds, every key a miss. -/
def adpEmpty : Adapter :=
  ⟨fun ks => (ks.map (fun _ => Value.zero), none),
   fun _ _ => none, fun _ => none⟩

/-- Test adapter: `MGet` fails returning a nil slice (as the bundled
redis adapter does on a transport error); other calls succeed. -/
def adpMGetFailNil : Adapter :=
  ⟨fun _ => ([], some (Err.transport 1)),
   fun _ _ => none, fun _ => none⟩

/-- Test adapter: `MGet` fails but still returns one invalid value per
requested key. -/
def adpMGetFailFull : Adapter :=
  ⟨fun ks => (ks.map (fun _ => Value.zero), some (Err.transport 1)),
   fun _ _ => none, fun _ => none⟩

/-- Test adapter: every key hits with payload `[7]`. -/
def adpHit7 : Adapter :=
  ⟨fun ks => (ks.map (fun _ => Value.mk true [7]), none),
   fun _ _ => none, fun _ => none⟩

/-- Test adapter: `MSet` fails, everything else succeeds (all miss). -/
def adpMSetFail : Adapter :=
  ⟨fun ks => (ks.map (fun _ => Value.zero), none),
   fun _ _ => some (Err.transport 2), fun _ => none⟩

/-- Test adapter: `Del` fails, everything else succeeds. -/
def adpDelFail : Adapter :=
  ⟨fun ks => (ks.map (fun _ => Value.zero), none),
   fun _ _ => none, fun _ => some (Err.transport 3)⟩

/-- Simple injective test codec. -/
def codecOkMarshal : IVal → Except Err Bytes := fun v => Except.ok [v]

/-- Inverse of the test codec. -/
def codecOkUnmarshal : Bytes → Except Err IVal :=
  fun b => Except.ok (b.headD 0)

/-- C1 scenario: local tier errors with a nil slice, shared tier holds a
good value for every key. -/
def cfgC1 : Config :=
  ⟨some adpHit7, some adpMGetFailNil, 0, 0, none,
   codecOkMarshal, codecOkUnmarshal⟩

/-- C1 amended scenario: the erroring local tier returns a full-length
all-invalid slice. -/
def cfgC1w : Config :=
  ⟨some adpHit7, some adpMGetFailFull, 0, 0, none,
   codecOkMarshal, codecOkUnmarshal⟩

/-- C2 scenario: local tier only, local `MSet` fails. -/
def cfgC2 : Config :=
  ⟨none, some adpMSetFail, 0, 0, none, codecOkMarshal, codecOkUnmarshal⟩

/-- C2 amended witness scenario: shared write succeeds, local fails. -/
def cfgC2w : Config :=
  ⟨some adpEmpty, some adpMSetFail, 0, 0, none,
   codecOkMarshal, codecOkUnmarshal⟩

/-- C8 witness scenario: both tiers delete successfully. -/
def cfgC8w : Config :=
  ⟨some adpEmpty, some adpEmpty, 0, 0, none,
   codecOkMarshal, codecOkUnmarshal⟩

/-- A plain local-only config with no mGetter. -/
def cfgPlain : Config :=
  ⟨none, some adpEmpty, 0, 0, none, codecOkMarshal, codecOkUnmarshal⟩

/-- A cache with only prefix "p" (config `cfgPlain`), no pubsub, default
package key. -/
def cacheM0 : CacheM := ⟨[(['p'], cfgPlain)], false, ['c', 'a']⟩

/-- The result `MGet` on `cacheM0` with keys `["k"]` produces: one slot,
missed. -/
def r0 : ResultR := ⟨[0], [[]], [some Err.cacheMiss], codecOkUnmarshal⟩

/-- An mGetter that always fails with a transport error. -/
def gErr : List GoStr → GoAny × Option Err :=
  fun _ => (GoAny.slice [], some (Err.transport 9))

/-- Config whose mGetter is `gErr`, local tier all-miss. -/
def cfgGErr : Config :=
  ⟨none, some adpEmpty, 0, 0, some gErr, codecOkMarshal, codecOkUnmarshal⟩

/-- Cache carrying `cfgGErr` under prefix "p". -/
def cacheMG : CacheM := ⟨[(['p'], cfgGErr)], false, ['c', 'a']⟩

/-- An mGetter answering `[5, 7]` for any miss list. -/
def gTwo : List GoStr → GoAny × Option Err :=
  fun _ => (GoAny.slice [5, 7], none)

/-- A marshal that fails exactly on the payload `7`. -/
def marshalSel : IVal → Except Err Bytes :=
  fun v => if v = 7 then Except.error (Err.marshalFail 7) else Except.ok [v]

/-- Config for the partial miss-fill scenario: mGetter `gTwo`, marshal
failing on `7`, local tier all-miss. -/
def cfgFill : Config :=
  ⟨none, some adpEmpty, 0, 0, some gTwo, marshalSel, codecOkUnmarshal⟩

/-- Cache carrying `cfgFill` under prefix "p". -/
def cacheMF : CacheM := ⟨[(['p'], cfgFill)], false, ['c', 'a']⟩

/-- Deduped keys of the partial miss-fill scenario. -/
def dkC4 : List GoStr := (dedup [['a'], ['b']]).2

/-- Cache values of the partial miss-fill scenario: both miss. -/
def cvC4 : List Value := [Value.zero, Value.zero]

/-- The pre-fill result of the partial miss-fill scenario. -/
def resC4 : ResultR :=
  ⟨(dedup [['a'], ['b']]).1, (hitMissSlots cvC4 dkC4.length).1,
   (hitMissSlots cvC4 dkC4.length).2, cfgFill.unmarshal⟩

/-- The miss-fill outcome of the partial miss-fill scenario. -/
def fillC4 : List (GoStr × Bytes) × ResultR :=
  fillMiss cfgFill.marshal ['c', 'a'] ['p'] (getKeyIndex dkC4)
    ((mgetMissKeys dkC4 cvC4).zip [5, 7]) [] resC4

/-- A factory with both adapters present and the default codec. -/
def facOK : FactoryM :=
  ⟨some adpEmpty, some adpEmpty, codecOkMarshal, codecOkUnmarshal⟩

/-- A valid setting: prefix "p", both tier attributes, no overrides. -/
def settingOK : Setting := ⟨['p'], some 5, some 3, none, none, none⟩

/-- The registration `newCacheStep facOK [] settingOK` produces. -/
def regOKres : List GoStr × (GoStr × Config) :=
  (['p'] :: [],
   (['p'], ⟨some adpEmpty, some adpEmpty, 5, 3, none,
     codecOkMarshal, codecOkUnmarshal⟩))

/-! ### Basic lemmas about the lookup helpers -/

theorem idxOf?_eq_none {l : List GoStr} {k : GoStr} :
    idxOf? l k = none ↔ k ∉ l := by
  induction l with
  | nil => simp [idxOf?]
  | cons a t ih =>
    by_cases h : a = k
    · simp [idxOf?, h]
    · simp [idxOf?, if_neg h, Option.map_eq_none', ih, Ne.symm h]

theorem idxOf?_isSome_of_mem {l : List GoStr} {k : GoStr} (h : k ∈ l) :
    ∃ j, idxOf? l k = some j := by
  cases hj : idxOf? l k with
  | none => exact absurd (idxOf?_eq_none.mp hj) (by simp [h])
  | some j => exact ⟨j, rfl⟩

theorem mem_of_idxOf?_eq_some {l : List GoStr} {k : GoStr} {j : Nat}
    (h : idxOf? l k = some j) : k ∈ l := by
  by_contra hk
  rw [idxOf?_eq_none.mpr hk] at h
  exact Option.noConfusion h

theorem idxOf?_append_left {l l' : List GoStr} {k : GoStr} {j : Nat}
    (h : idxOf? l k = some j) : idxOf? (l ++ l') k = some j := by
  induction l generalizing j with
  | nil => simp [idxOf?] at h
  | cons a t ih =>
    by_cases ha : a = k
    · simp [idxOf?, ha] at h ⊢
      exact h
    · simp [idxOf?, if_neg ha] at h ⊢
      obtain ⟨j', hj', rfl⟩ := h
      exact ⟨j', ih hj', rfl⟩

theorem idxOf?_append_right {l l' : List GoStr} {k : GoStr} (h : k ∉ l) :
    idxOf? (l ++ l') k = (idxOf? l' k).map (· + l.length) := by
  induction l with
  | nil => simp
  | cons a t ih =>
    have ha : a ≠ k := fun hak => h (by simp [hak])
    have ht : k ∉ t := fun hkt => h (List.mem_cons_of_mem _ hkt)
    rw [List.cons_append, idxOf?, if_neg ha, ih ht]
    cases idxOf? l' k
    · rfl
    · simp [List.length_cons, Nat.add_assoc]

theorem idxOf?_lt_length {l : List GoStr} {k : GoStr} {j : Nat}
    (h : idxOf? l k = some j) : j < l.length := by
  induction l generalizing j with
  | nil => simp [idxOf?] at h
  | cons a t ih =>
    by_cases ha : a = k
    · simp [idxOf?, ha] at h
      simp only [List.length_cons]
      omega
    · simp [idxOf?, if_neg ha] at h
      obtain ⟨j', hj', rfl⟩ := h
      simp only [List.length_cons]
      exact Nat.succ_lt_succ (ih hj')

theorem get?_of_idxOf?_eq_some {l : List GoStr} {k : GoStr} {j : Nat}
    (h : idxOf? l k = some j) : l.get? j = some k := by
  induction l generalizing j with
  | nil => simp [idxOf?] at h
  | cons a t ih =>
    by_cases ha : a = k
    · simp [idxOf?, ha] at h
      simp [← h, ha]
    · simp [idxOf?, if_neg ha] at h
      obtain ⟨j', hj', rfl⟩ := h
      simpa using ih hj'

theorem idxOf?_injective {l : List GoStr} {k k' : GoStr} {j : Nat}
    (h : idxOf? l k = some j) (h' : idxOf? l k' = some j) : k = k' := by
  have h1 := get?_of_idxOf?_eq_some h
  have h2 := get?_of_idxOf?_eq_some h'
  rw [h1] at h2
  exact Option.some_injective _ h2

/-! ### First-occurrence deduplication lemmas -/

theorem mem_firstOccurFrom {seen ps : List GoStr} {k : GoStr} :
    k ∈ firstOccurFrom seen ps ↔ k ∈ ps ∧ k ∉ seen := by
  induction ps generalizing seen with
  | nil => simp [firstOccurFrom]
  | cons p pt ih =>
    by_cases hp : p ∈ seen
    · rw [firstOccurFrom, if_pos hp, ih]
      constructor
      · rintro ⟨h1, h2⟩
        exact ⟨List.mem_cons_of_mem _ h1, h2⟩
      · rintro ⟨h1, h2⟩
        rcases List.mem_cons.mp h1 with rfl | h1
        · exact absurd hp h2
        · exact ⟨h1, h2⟩
    · rw [firstOccurFrom, if_neg hp]
      constructor
      · intro hk
        rcases List.mem_cons.mp hk with rfl | hk
        · exact ⟨List.mem_cons_self _ _, hp⟩
        · obtain ⟨h1, h2⟩ := ih.mp hk
          exact ⟨List.mem_cons_of_mem _ h1,
            fun hs => h2 (List.mem_append.mpr (Or.inl hs))⟩
      · rintro ⟨h1, h2⟩
        by_cases hkp : k = p
        · subst hkp
          exact List.mem_cons_self _ _
        · rcases List.mem_cons.mp h1 with rfl | h1
          · exact absurd rfl hkp
          · refine List.mem_cons_of_mem _ (ih.mpr ⟨h1, fun hs => ?_⟩)
            rcases List.mem_append.mp hs with hs | hs
            · exact h2 hs
            · exact hkp (List.mem_singleton.mp hs)

theorem nodup_append_firstOccurFrom {seen ps : List GoStr}
    (h : seen.Nodup) : (seen ++ firstOccurFrom seen ps).Nodup := by
  induction ps generalizing seen with
  | nil => simpa [firstOccurFrom]
  | cons p pt ih =>
    by_cases hp : p ∈ seen
    · rw [firstOccurFrom, if_pos hp]
      exact ih h
    · rw [firstOccurFrom, if_neg hp]
      have h' : (seen ++ [p]).Nodup := by
        simp [List.nodup_append, h, hp]
      have := @ih (seen ++ [p]) h'
      simpa [List.append_assoc] using this

theorem nodup_firstOccur (l : List GoStr) : (firstOccur l).Nodup := by
  simpa [firstOccur] using
    @nodup_append_firstOccurFrom [] l List.nodup_nil

theorem mem_firstOccur {l : List GoStr} {k : GoStr} :
    k ∈ firstOccur l ↔ k ∈ l := by
  simp [firstOccur, mem_firstOccurFrom]

/-! ### The dedup computation -/

theorem dedupAux_spec (ps : List GoStr) :
    ∀ (m : List (GoStr × Nat)) (dkeys : List GoStr),
    (∀ k, alookup m k = idxOf? dkeys k) →
    dedupAux ps m dkeys =
      (ps.map (fun q => (idxOf? (dkeys ++ firstOccurFrom dkeys ps) q).getD 0),
       dkeys ++ firstOccurFrom dkeys ps) := by
  induction ps with
  | nil => intro m dkeys _; simp [dedupAux, firstOccurFrom]
  | cons p pt ih =>
    intro m dkeys hm
    cases hmp : alookup m p with
    | some j =>
      have hj : idxOf? dkeys p = some j := by rw [← hm p, hmp]
      have hpmem : p ∈ dkeys := mem_of_idxOf?_eq_some hj
      rw [dedupAux, hmp, ih m dkeys hm, firstOccurFrom, if_pos hpmem]
      refine Prod.ext ?_ rfl
      simp only [List.map_cons]
      congr 1
      simp [idxOf?_append_left hj]
    | none =>
      have hpnot : p ∉ dkeys := idxOf?_eq_none.mp (by rw [← hm p, hmp])
      have hm' : ∀ k, alookup ((p, dkeys.length) :: m) k =
          idxOf? (dkeys ++ [p]) k := by
        intro k
        by_cases hk : p = k
        · subst hk
          rw [idxOf?_append_right hpnot]
          simp [alookup, idxOf?]
        · simp only [alookup, if_neg hk, hm k]
          by_cases hkd : k ∈ dkeys
          · obtain ⟨j', hj'⟩ := idxOf?_isSome_of_mem hkd
            rw [hj', idxOf?_append_left hj']
          · rw [idxOf?_eq_none.mpr hkd, idxOf?_append_right hkd]
            simp [idxOf?, hk]
      rw [dedupAux, hmp, ih _ _ hm', firstOccurFrom, if_neg hpnot]
      have hassoc : (dkeys ++ [p]) ++ firstOccurFrom (dkeys ++ [p]) pt =
          dkeys ++ p :: firstOccurFrom (dkeys ++ [p]) pt := by
        simp [List.append_assoc]
      refine Prod.ext ?_ hassoc
      simp only [List.map_cons]
      congr 1
      · rw [idxOf?_append_right hpnot]
        simp [idxOf?]
      · rw [hassoc]

theorem dedup_eq (params : List GoStr) :
    dedup params =
      (params.map (fun q => (idxOf? (firstOccur params) q).getD 0),
       firstOccur params) := by
  rw [dedup]
  by_cases h1 : params.length = 1
  · rw [if_pos h1]
    match params, h1 with
    | [a], _ => simp [firstOccur, firstOccurFrom, idxOf?]
  · rw [if_neg h1]
    have := dedupAux_spec params [] [] (fun k => by simp [alookup, idxOf?])
    simpa [firstOccur] using this

/-- C5: for any input key list, `dedup` returns `dedupedKeys` in
first-occurrence order (they are exactly the first-occurrence
deduplication of the input: each key appears exactly once, at the
position of its first occurrence), and for every index `i`, `indexMap[i]`
is the position in `dedupedKeys` of the first occurrence of `keys[i]`. -/
theorem dedup_fst_get? (keys : List GoStr) (i : Nat) (hi : i < keys.length) :
    (dedup keys).1.get? i = idxOf? (firstOccur keys) (keys.getD i []) := by
  rw [dedup_eq]
  have hx : keys.get? i = some (keys.get ⟨i, hi⟩) := List.get?_eq_get hi
  have hmem : keys.get ⟨i, hi⟩ ∈ keys := List.get_mem keys i hi
  have hgd : keys.getD i [] = keys.get ⟨i, hi⟩ := by
    rw [List.getD_eq_get? keys i, hx]
    rfl
  obtain ⟨j, hj⟩ := idxOf?_isSome_of_mem (mem_firstOccur.mpr hmem)
  rw [List.get?_map, hx, hgd, hj]
  simp only [List.get_eq_getElem] at hj
  simp [hj]

theorem dedup_fst_length (keys : List GoStr) :
    (dedup keys).1.length = keys.length := by
  rw [dedup_eq]
  simp

/-- C5: for any input key list, `dedup` returns `dedupedKeys` in
first-occurrence order (they are exactly the first-occurrence
deduplication of the input: each key appears exactly once, at the
position of its first occurrence), and for every index `i`, `indexMap[i]`
is the position in `dedupedKeys` of the first occurrence of `keys[i]`. -/
theorem C5_dedup_determinism (keys : List GoStr) :
    (dedup keys).2 = firstOccur keys ∧
    (dedup keys).2.Nodup ∧
    (∀ k, k ∈ (dedup keys).2 ↔ k ∈ keys) ∧
    (dedup keys).1.length = keys.length ∧
    (∀ i, i < keys.length →
      (dedup keys).1.get? i = idxOf? (firstOccur keys) (keys.getD i [])) := by
  refine ⟨?_, ?_, ?_, dedup_fst_length keys,
    fun i hi => dedup_fst_get? keys i hi⟩
  · rw [dedup_eq]
  · rw [dedup_eq]
    exact nodup_firstOccur keys
  · rw [dedup_eq]
    exact fun k => mem_firstOccur

/-- Witness for C5 at keys = ["ab", "c", "ab"], index 2 (a duplicate). -/
theorem C5_dedup_determinism_witness :
    (dedup [['a', 'b'], ['c'], ['a', 'b']]).1.get? 2 =
      idxOf? (firstOccur [['a', 'b'], ['c'], ['a', 'b']])
        ([['a', 'b'], ['c'], ['a', 'b']].getD 2 []) :=
  (C5_dedup_determinism [['a', 'b'], ['c'], ['a', 'b']]).2.2.2.2 2 (by decide)

/-! ### Key namespace round-trip -/

theorem charIdx?_append_delim {a : GoStr} (b : GoStr) (h : cacheDelim ∉ a) :
    charIdx? (a ++ cacheDelim :: b) cacheDelim = some a.length := by
  induction a with
  | nil => simp [charIdx?]
  | cons c t ih =>
    have hc : c ≠ cacheDelim := fun he => h (by simp [he])
    have ht : cacheDelim ∉ t := fun hm => h (List.mem_cons_of_mem _ hm)
    rw [List.cons_append, charIdx?, if_neg hc, ih ht]
    simp

theorem customKey_pair (x y : GoStr) :
    customKey [x, y] = x ++ cacheDelim :: y := by
  simp [customKey, List.intersperse]

theorem customKey_triple (x y z : GoStr) :
    customKey [x, y, z] = x ++ cacheDelim :: (y ++ cacheDelim :: z) := by
  simp [customKey, List.intersperse]

theorem splitAt_delim_take (u v : GoStr) :
    (u ++ cacheDelim :: v).take u.length = u :=
  List.take_left u (cacheDelim :: v)

theorem splitAt_delim_drop {u : GoStr} (v : GoStr) :
    (u ++ cacheDelim :: v).drop (u.length + 1) = v := by
  have h1 : u ++ cacheDelim :: v = (u ++ [cacheDelim]) ++ v := by simp
  have h2 : (u ++ [cacheDelim]).length = u.length + 1 := by simp
  rw [h1, ← h2]
  exact List.drop_left _ _

/-- C6: for every `(prefix, key)` pair in which `':'` occurs in neither
string (and not in the package key, which is one `':'`-free segment by
construction — default `"ca"`), parsing the fully-qualified cache key
recovers exactly `(prefix, key)`, both when the package key is set and
when it is empty. -/
theorem C6_namespace_roundtrip (pkg pfx key : GoStr)
    (hpkg : cacheDelim ∉ pkg) (hpfx : cacheDelim ∉ pfx)
    (_hkey : cacheDelim ∉ key) :
    getPrefixAndKey pkg (getCacheKey pkg pfx key) = (pfx, key) := by
  by_cases hp : pkg = []
  · subst hp
    have h1 : delimIdx (pfx ++ cacheDelim :: key) = some pfx.length :=
      charIdx?_append_delim key hpfx
    rw [getCacheKey, if_pos rfl, customKey_pair]
    simp [getPrefixAndKey, h1, splitAt_delim_take pfx key,
      splitAt_delim_drop key]
  · have h1 : delimIdx (pkg ++ cacheDelim :: (pfx ++ cacheDelim :: key)) =
        some pkg.length := charIdx?_append_delim _ hpkg
    have hd : (pkg ++ cacheDelim :: (pfx ++ cacheDelim :: key)).drop
        (pkg.length + 1) = pfx ++ cacheDelim :: key :=
      splitAt_delim_drop _
    have h2 : delimIdx (pfx ++ cacheDelim :: key) = some pfx.length :=
      charIdx?_append_delim _ hpfx
    rw [getCacheKey, if_neg hp, customKey_triple]
    simp [getPrefixAndKey, h1, hp, hd, h2, splitAt_delim_take pfx key,
      splitAt_delim_drop key]

/-- Witness for C6 at the default package key "ca", prefix "p", key "uk". -/
theorem C6_namespace_roundtrip_witness :
    getPrefixAndKey ['c', 'a'] (getCacheKey ['c', 'a'] ['p'] ['u', 'k']) =
      (['p'], ['u', 'k']) :=
  C6_namespace_roundtrip ['c', 'a'] ['p'] ['u', 'k']
    (by decide) (by decide) (by decide)

/-! ### refill (claim C2) -/

/-- C2 counterexample: with a local tier whose `MSet` fails (no shared
tier) and pubsub registered, `refill` swallows the error but broadcasts
no Evict event — the trace is just the local `MSet` call, refuting the
claim that an Evict event is then broadcast for these keys. -/
theorem C2_refill_counterexample :
    refill true cfgC2 [(['k'], [1])] =
      (none, [Eff.localMSet [(['k'], [1])]]) ∧
    Eff.evict [['k']] ∉ (refill true cfgC2 [(['k'], [1])]).2 := by
  constructor
  · rfl
  · intro h
    simp [refill, refillLocal, cfgC2, adpMSetFail] at h

/-- C2 amended: in `refill`, a failing shared `MSet` aborts with that
error before the local tier is touched; with the shared write successful
(or no shared tier), a failing local `MSet` is swallowed (`refill`
returns nil) but no Evict event is broadcast; the Evict broadcast happens
only after a successful local `MSet`. -/
theorem C2_refill_amended (reg : Bool) (cfg : Config) (la : Adapter)
    (kb : List (GoStr × Bytes)) (hl : cfg.localAdp = some la) :
    (∀ sa e, cfg.shared = some sa → sa.mset kb cfg.sharedTTL = some e →
      refill reg cfg kb = (some e, [Eff.sharedMSet kb])) ∧
    (∀ sa e, cfg.shared = some sa → sa.mset kb cfg.sharedTTL = none →
      la.mset kb cfg.localTTL = some e →
      refill reg cfg kb = (none, [Eff.sharedMSet kb, Eff.localMSet kb])) ∧
    (∀ sa, cfg.shared = some sa → sa.mset kb cfg.sharedTTL = none →
      la.mset kb cfg.localTTL = none →
      refill reg cfg kb =
        (none, Eff.sharedMSet kb :: Eff.localMSet kb ::
          evictRemoteKeyMap reg kb)) ∧
    (∀ e, cfg.shared = none → la.mset kb cfg.localTTL = some e →
      refill reg cfg kb = (none, [Eff.localMSet kb])) ∧
    (cfg.shared = none → la.mset kb cfg.localTTL = none →
      refill reg cfg kb =
        (none, Eff.localMSet kb :: evictRemoteKeyMap reg kb)) := by
  refine ⟨?_, ?_, ?_, ?_, ?_⟩
  · intro sa e hs he
    simp [refill, hs, he]
  · intro sa e hs hse hle
    simp [refill, refillLocal, hs, hse, hl, hle]
  · intro sa hs hse hle
    simp [refill, refillLocal, hs, hse, hl, hle]
  · intro e hs hle
    simp [refill, refillLocal, hs, hl, hle]
  · intro hs hle
    simp [refill, refillLocal, hs, hl, hle]

/-- Witness for C2 amended: shared write succeeds, local `MSet` fails;
the error is swallowed and the trace stops before any Evict. -/
theorem C2_refill_amended_witness :
    refill true cfgC2w [(['k'], [1])] =
      (none, [Eff.sharedMSet [(['k'], [1])], Eff.localMSet [(['k'], [1])]]) :=
  (C2_refill_amended true cfgC2w adpMSetFail [(['k'], [1])] rfl).2.1
    adpEmpty (Err.transport 2) rfl rfl rfl

/-! ### del (claim C8) -/

/-- C8: in `del`, the shared-tier delete runs first and on error `del`
aborts with that error before touching the local tier; otherwise the
local delete runs, its error propagates, and the Evict broadcast comes
only after (and in the trace, strictly later than) a successful local
delete. -/
theorem C8_del_ordering (reg : Bool) (cfg : Config) (sa la : Adapter)
    (keys : List GoStr) (_hne : keys ≠ [])
    (hs : cfg.shared = some sa) (hl : cfg.localAdp = some la) :
    (∀ e, sa.del keys = some e →
      delCore reg cfg keys = (some e, [Eff.sharedDel keys])) ∧
    (∀ e, sa.del keys = none → la.del keys = some e →
      delCore reg cfg keys =
        (some e, [Eff.sharedDel keys, Eff.localDel keys])) ∧
    (sa.del keys = none → la.del keys = none →
      delCore reg cfg keys =
        (none, Eff.sharedDel keys :: Eff.localDel keys ::
          evictRemoteKeys reg keys)) := by
  refine ⟨?_, ?_, ?_⟩
  · intro e he
    simp [delCore, hs, he]
  · intro e hse hle
    simp [delCore, hs, hse, hl, hle]
  · intro hse hle
    simp [delCore, hs, hse, hl, hle]

/-- Witness for C8: both deletes succeed and the Evict broadcast follows
the local delete. -/
theorem C8_del_ordering_witness :
    delCore true cfgC8w [['k']] =
      (none, [Eff.sharedDel [['k']], Eff.localDel [['k']],
        Eff.evict [['k']]]) :=
  (C8_del_ordering true cfgC8w adpEmpty adpEmpty [['k']] (by decide)
    rfl rfl).2.2 rfl rfl

/-! ### Local-only prefixes (claim C10) -/

theorem load_fst_ok_of_shared_none (reg : Bool) (cfg : Config)
    (h : cfg.shared = none) (keys : List GoStr) :
    ∃ vs, (load reg cfg keys).1 = Except.ok vs := by
  unfold load
  rw [h]
  dsimp only
  split
  · exact ⟨_, rfl⟩
  · cases hl : cfg.localAdp with
    | none => exact ⟨_, rfl⟩
    | some la =>
      dsimp only
      split
      · exact ⟨_, rfl⟩
      · exact ⟨_, rfl⟩

theorem refill_fst_none_of_shared_none (reg : Bool) (cfg : Config)
    (h : cfg.shared = none) (kb : List (GoStr × Bytes)) :
    (refill reg cfg kb).1 = none := by
  unfold refill refillLocal
  rw [h]
  cases hl : cfg.localAdp with
  | none => rfl
  | some la =>
    dsimp only
    cases hm : la.mset kb cfg.localTTL <;> rfl

theorem mgetFill_error (c : CacheM) (cfg : Config) (pfx : GoStr)
    (dKeys missKeys : List GoStr) (res1 : ResultR) (e : Err)
    (herr : (mgetFill c cfg pfx dKeys missKeys res1).1 = Except.error e) :
    ∃ g, cfg.mGetter = some g ∧
      ((g missKeys).2 = some e ∨
       e = Err.mGetterResponseNotSlice ∨
       e = Err.mGetterResponseLengthInvalid) := by
  unfold mgetFill at herr
  cases hmg : cfg.mGetter with
  | none =>
    rw [hmg] at herr
    simp at herr
  | some g =>
    rw [hmg] at herr
    dsimp only at herr
    refine ⟨g, rfl, ?_⟩
    cases hg2 : (g missKeys).2 with
    | some e' =>
      rw [hg2] at herr
      simp at herr
      subst herr
      exact Or.inl rfl
    | none =>
      rw [hg2] at herr
      dsimp only at herr
      cases hg1 : (g missKeys).1 with
      | nonSlice v =>
        rw [hg1] at herr
        simp at herr
        exact Or.inr (Or.inl herr.symm)
      | slice xs =>
        rw [hg1] at herr
        dsimp only at herr
        split at herr
        · simp at herr
          exact Or.inr (Or.inr herr.symm)
        · simp at herr

/-! ### Index and merge lemmas for `load` -/

theorem idxOf?_get_self {l : List GoStr} (hnd : l.Nodup) (j : Nat)
    (h : j < l.length) : idxOf? l (l.get ⟨j, h⟩) = some j := by
  induction l generalizing j with
  | nil => simp at h
  | cons a t ih =>
    cases j with
    | zero => simp [idxOf?]
    | succ j' =>
      have h' : j' < t.length := by simpa using h
      have hx : (a :: t).get ⟨j' + 1, h⟩ = t.get ⟨j', h'⟩ := rfl
      rw [hx]
      have hmem : t.get ⟨j', h'⟩ ∈ t := List.get_mem t j' h'
      have hne : a ≠ t.get ⟨j', h'⟩ :=
        fun he => (List.nodup_cons.mp hnd).1 (he ▸ hmem)
      have hne' : a ≠ t[j'] := hne
      have ihj : idxOf? t t[j'] = some j' :=
        ih (List.nodup_cons.mp hnd).2 j' h'
      simp only [idxOf?, List.get_eq_getElem]
      rw [if_neg hne', ihj]
      rfl

theorem alookup_getKeyIndexFrom (ks : List GoStr) :
    ∀ (i : Nat) (m : List (GoStr × Nat)) (k : GoStr), ks.Nodup →
    alookup (getKeyIndexFrom i ks m) k =
      (match idxOf? ks k with
       | some j => some (i + j)
       | none => alookup m k) := by
  induction ks with
  | nil =>
    intro i m k _
    simp [getKeyIndexFrom, idxOf?]
  | cons a t ih =>
    intro i m k hnd
    rw [getKeyIndexFrom, ih (i + 1) _ k (List.nodup_cons.mp hnd).2]
    by_cases hk : a = k
    · subst hk
      rw [idxOf?_eq_none.mpr (List.nodup_cons.mp hnd).1]
      simp [alookup, idxOf?]
    · simp only [idxOf?, if_neg hk]
      cases idxOf? t k with
      | none => simp [alookup, hk]
      | some j =>
        simp only [Option.map_some']
        congr 1
        omega

theorem alookup_getKeyIndex {keys : List GoStr} (hnd : keys.Nodup)
    (k : GoStr) : alookup (getKeyIndex keys) k = idxOf? keys k := by
  rw [getKeyIndex, alookup_getKeyIndexFrom keys 0 [] k hnd]
  cases idxOf? keys k <;> simp [alookup]

theorem foldl_set_cons (g2 : GoStr → Nat) (pairs : List (Value × GoStr))
    (hpos : ∀ p ∈ pairs, 1 ≤ g2 p.2) (a : Value) (l : List Value) :
    pairs.foldl (fun acc p => acc.set (g2 p.2) p.1) (a :: l) =
      a :: pairs.foldl (fun acc p => acc.set (g2 p.2 - 1) p.1) l := by
  induction pairs generalizing a l with
  | nil => rfl
  | cons p pt ih =>
    have hp := hpos p (List.mem_cons_self _ _)
    obtain ⟨n, hn⟩ : ∃ n, g2 p.2 = n + 1 := ⟨g2 p.2 - 1, by omega⟩
    simp only [List.foldl_cons, hn]
    have hset : (a :: l).set (n + 1) p.1 = a :: l.set n p.1 := rfl
    rw [hset, ih (fun q hq => hpos q (List.mem_cons_of_mem _ hq))]
    simp

theorem foldl_set_eq (keys : List GoStr) :
    ∀ (g : GoStr → Nat) (vs ws : List Value),
    vs.length = keys.length → ws.length = keys.length →
    (∀ j (h : j < keys.length), g (keys.get ⟨j, h⟩) = j) →
    (ws.zip keys).foldl (fun a p => a.set (g p.2) p.1) vs = ws := by
  induction keys with
  | nil =>
    intro g vs ws hv hw _
    rw [List.length_nil, List.length_eq_zero] at hv hw
    subst hv; subst hw
    rfl
  | cons k kt ih =>
    intro g vs ws hv hw hg
    cases vs with
    | nil => simp at hv
    | cons v vt =>
      cases ws with
      | nil => simp at hw
      | cons w wt =>
        have hg0 : g k = 0 := hg 0 (by simp)
        simp only [List.zip_cons_cons, List.foldl_cons, hg0]
        have hset : (v :: vt).set 0 w = w :: vt := rfl
        rw [hset]
        have hpos : ∀ p ∈ wt.zip kt, 1 ≤ g p.2 := by
          intro p hp
          have hmem : p.2 ∈ kt := (List.of_mem_zip hp).2
          obtain ⟨⟨j, hj⟩, hjeq⟩ := List.mem_iff_get.mp hmem
          have hgj := hg (j + 1) (by simpa using Nat.succ_lt_succ hj)
          have hx : (k :: kt).get ⟨j + 1, by simpa using Nat.succ_lt_succ hj⟩
              = kt.get ⟨j, hj⟩ := rfl
          rw [hx, hjeq] at hgj
          omega
        rw [foldl_set_cons g _ hpos w vt]
        congr 1
        apply ih (fun x => g x - 1) vt wt (by simpa using hv)
          (by simpa using hw)
        intro j h
        have hgj := hg (j + 1) (by simpa using Nat.succ_lt_succ h)
        have hx : (k :: kt).get ⟨j + 1, by simpa using Nat.succ_lt_succ h⟩
            = kt.get ⟨j, h⟩ := rfl
        rw [hx] at hgj
        omega

theorem mergeShared_full {keys : List GoStr} (hnd : keys.Nodup)
    {vs ws : List Value} (hv : vs.length = keys.length)
    (hw : ws.length = keys.length) :
    mergeShared (getKeyIndex keys) vs ws keys = ws := by
  unfold mergeShared
  apply foldl_set_eq keys
    (fun k => (alookup (getKeyIndex keys) k).getD 0) vs ws hv hw
  intro j h
  rw [alookup_getKeyIndex hnd, idxOf?_get_self hnd j h]
  rfl

theorem missKeys_all_invalid {vs : List Value} {keys : List GoStr}
    (hlen : vs.length = keys.length)
    (hinv : ∀ v ∈ vs, v.valid = false) :
    ((vs.zip keys).filter (fun p => !p.1.valid)).map Prod.snd = keys := by
  induction vs generalizing keys with
  | nil =>
    cases keys with
    | nil => rfl
    | cons k kt => simp at hlen
  | cons v vt ih =>
    cases keys with
    | nil => simp at hlen
    | cons k kt =>
      have hv := hinv v (List.mem_cons_self _ _)
      simp [List.zip_cons_cons, List.filter_cons, hv,
        ih (by simpa using hlen)
          (fun x hx => hinv x (List.mem_cons_of_mem _ hx))]

/-! ### Claim C1 -/

/-- C1 counterexample: the local tier errors returning a nil value slice
(exactly what the bundled redis adapter does); the shared tier holds a
good value for the requested key; yet `load` returns a zero-length slice
— not one `TierValue` per key — and the trace shows the shared tier was
never consulted, so the good shared value is hidden. -/
theorem C1_load_local_error_counterexample :
    adpMGetFailNil.mget [['k']] = ([], some (Err.transport 1)) ∧
    adpHit7.mget [['k']] = ([Value.mk true [7]], none) ∧
    cfgC1 = { shared := some adpHit7, localAdp := some adpMGetFailNil,
              sharedTTL := 0, localTTL := 0, mGetter := none,
              marshal := codecOkMarshal, unmarshal := codecOkUnmarshal } ∧
    load false cfgC1 [['k']] = (Except.ok [], [Eff.localMGet [['k']]]) :=
  ⟨rfl, rfl, rfl, rfl⟩

/-- C1 amended: the coordinator ignores the local `MGet` error and
recomputes the miss set from whatever value slice the local tier
returned; the claimed guarantee holds provided the erroring local tier
still returns a full-length all-invalid slice: then every key is treated
as a miss, the shared tier is consulted, and `load` returns the shared
tier's values — one `TierValue` per key. (A local tier that returns a
nil or short slice with its error instead short-circuits `load`.) -/
theorem C1_load_local_error_amended (reg : Bool) (cfg : Config)
    (la sa : Adapter) (keys : List GoStr)
    (hl : cfg.localAdp = some la) (hs : cfg.shared = some sa)
    (hnd : keys.Nodup) (hne : keys ≠ [])
    (vs : List Value) (e : Err) (hmg : la.mget keys = (vs, some e))
    (hlen : vs.length = keys.length)
    (hinv : ∀ v ∈ vs, v.valid = false)
    (ws : List Value) (hsg : sa.mget keys = (ws, none))
    (hwlen : ws.length = keys.length) :
    (load reg cfg keys).1 = Except.ok ws ∧
    Eff.sharedMGet keys ∈ (load reg cfg keys).2 := by
  have hmiss := missKeys_all_invalid hlen hinv
  unfold load localLoad
  rw [hl]
  dsimp only
  rw [hmg]
  dsimp only
  rw [hmiss, if_neg hne, hs]
  dsimp only
  rw [hsg]
  dsimp only
  rw [mergeShared_full hnd hlen hwlen]
  split
  · exact ⟨rfl, by simp⟩
  · exact ⟨rfl, by simp⟩

/-- Witness for C1 amended: one key, local tier errors with a full-length
invalid slice, shared tier hits; `load` returns the shared value. -/
theorem C1_load_local_error_amended_witness :
    (load false cfgC1w [['k']]).1 = Except.ok [Value.mk true [7]] ∧
    Eff.sharedMGet [['k']] ∈ (load false cfgC1w [['k']]).2 :=
  C1_load_local_error_amended false cfgC1w adpMGetFailFull adpHit7 [['k']]
    rfl rfl (by decide) (by decide) [Value.zero] (Err.transport 1) rfl rfl
    (by decide) [Value.mk true [7]] rfl rfl

/-- C10: for a prefix configured with only a local tier, `load` never
returns an error whatever the local tier does, and neither `MGet` nor
`GetByFunc` on such a prefix can surface a tier transport error: their
errors can only be the prefix-lookup error, an `mGetter`-contract error
or the `mGetter`'s own error, or (for `GetByFunc`) the one-time getter's
or the codec's error. -/
theorem C10_local_only_no_tier_error (cfg : Config)
    (hsh : cfg.shared = none) :
    (∀ (reg : Bool) (keys : List GoStr),
      ∃ vs, (load reg cfg keys).1 = Except.ok vs) ∧
    (∀ (c : CacheM) (pfx : GoStr) (keys : List GoStr) (e : Err),
      alookup c.configs pfx = some cfg →
      (cacheMGet c pfx keys).1 = Except.error e →
      e = Err.mGetterResponseNotSlice ∨
      e = Err.mGetterResponseLengthInvalid ∨
      ∃ g mk, cfg.mGetter = some g ∧ (g mk).2 = some e) ∧
    (∀ (c : CacheM) (pfx key : GoStr) (getter : Unit → Except Err IVal)
      (e : Err),
      alookup c.configs pfx = some cfg →
      (cacheGetByFunc c pfx key getter).1 = Except.error e →
      getter () = Except.error e ∨
      (∃ v, getter () = Except.ok v ∧ cfg.marshal v = Except.error e) ∨
      (∃ b, cfg.unmarshal b = Except.error e)) := by
  refine ⟨?_, ?_, ?_⟩
  · intro reg keys
    exact load_fst_ok_of_shared_none reg cfg hsh keys
  · intro c pfx keys e hcfg herr
    simp only [cacheMGet, hcfg] at herr
    by_cases hk : keys = []
    · rw [if_pos hk] at herr
      simp at herr
    · rw [if_neg hk] at herr
      obtain ⟨vs, hvs⟩ := load_fst_ok_of_shared_none c.reg cfg hsh
        (getCacheKeys c.regPkgKey pfx (dedup keys).2)
      rw [hvs] at herr
      dsimp only at herr
      split at herr
      · simp at herr
      · simp only [] at herr
        obtain ⟨g, hmg, hcases⟩ := mgetFill_error c cfg pfx _ _ _ e herr
        rcases hcases with h | h | h
        · exact Or.inr (Or.inr ⟨g, _, hmg, h⟩)
        · exact Or.inl h
        · exact Or.inr (Or.inl h)
  · intro c pfx key getter e hcfg herr
    simp only [cacheGetByFunc, hcfg] at herr
    obtain ⟨vs, hvs⟩ := load_fst_ok_of_shared_none c.reg cfg hsh
      [getCacheKey c.regPkgKey pfx key]
    rw [hvs] at herr
    dsimp only at herr
    split at herr
    · exact Or.inr (Or.inr ⟨_, herr⟩)
    · cases hg : getter () with
      | error eg =>
        rw [hg] at herr
        simp at herr
        subst herr
        exact Or.inl rfl
      | ok v =>
        rw [hg] at herr
        dsimp only at herr
        cases hm : cfg.marshal v with
        | error em =>
          rw [hm] at herr
          simp at herr
          subst herr
          exact Or.inr (Or.inl ⟨v, rfl, hm⟩)
        | ok b =>
          rw [hm] at herr
          dsimp only at herr
          rw [refill_fst_none_of_shared_none c.reg cfg hsh] at herr
          dsimp only at herr
          exact Or.inr (Or.inr ⟨b, herr⟩)

/-- Witness for C10: a local-only config with a failing local `MSet`
still loads without error. -/
theorem C10_local_only_no_tier_error_witness :
    ∃ vs, (load true cfgC2 [['k']]).1 = Except.ok vs :=
  (C10_local_only_no_tier_error cfgC2 rfl).1 true [['k']]

/-! ### Factory registration (claim C9) -/

/-- C9: registering one setting aborts (Go panic, embedded as an error)
exactly when the setting is invalid — empty prefix, prefix already in the
process-wide registry, only one of marshal/unmarshal supplied, or a
setting that effectively binds neither a local nor a shared tier — and a
valid setting is recorded in the registry and yields the config entry
that the cache handle will serve. -/
theorem C9_newCache_validation (f : FactoryM) (used : List GoStr)
    (s : Setting) :
    ((∃ e, newCacheStep f used s = Except.error e) ↔
      (s.pfx = [] ∨ s.pfx ∈ used ∨
       (s.marshalFunc.isNone ∧ s.unmarshalFunc.isSome) ∨
       (s.marshalFunc.isSome ∧ s.unmarshalFunc.isNone) ∨
       ((boundShared f s).isNone ∧ (boundLocal f s).isNone))) ∧
    (∀ r, newCacheStep f used s = Except.ok r →
      r.1 = s.pfx :: used ∧ r.2.1 = s.pfx ∧
      r.2.2.shared = boundShared f s ∧
      r.2.2.localAdp = boundLocal f s ∧
      r.2.2.mGetter = s.mGetter) := by
  constructor
  · constructor
    · rintro ⟨e, he⟩
      unfold newCacheStep at he
      dsimp only at he
      split_ifs at he with h1 h2 h3 h4 h5
      · exact Or.inl h1
      · exact Or.inr (Or.inl h2)
      · exact Or.inr (Or.inr (Or.inl h3))
      · exact Or.inr (Or.inr (Or.inr (Or.inl h4)))
      · exact Or.inr (Or.inr (Or.inr (Or.inr h5)))
    · intro h
      unfold newCacheStep
      dsimp only
      split_ifs with h1 h2 h3 h4 h5
      · exact ⟨_, rfl⟩
      · exact ⟨_, rfl⟩
      · exact ⟨_, rfl⟩
      · exact ⟨_, rfl⟩
      · exact ⟨_, rfl⟩
      · rcases h with h | h | h | h | h
        · exact absurd h h1
        · exact absurd h h2
        · exact absurd h h3
        · exact absurd h h4
        · exact absurd h h5
  · intro r hr
    unfold newCacheStep at hr
    dsimp only at hr
    split_ifs at hr with h1 h2 h3 h4 h5
    injection hr with hr
    subst hr
    exact ⟨rfl, rfl, rfl, rfl, rfl⟩

/-- Witness for C9: a valid setting at an empty registry registers its
prefix and yields the expected config entry. -/
theorem C9_newCache_validation_witness :
    regOKres.1 = ['p'] :: [] ∧ regOKres.2.1 = ['p'] ∧
    regOKres.2.2.shared = boundShared facOK settingOK ∧
    regOKres.2.2.localAdp = boundLocal facOK settingOK ∧
    regOKres.2.2.mGetter = settingOK.mGetter :=
  (C9_newCache_validation facOK [] settingOK).2 regOKres rfl

/-! ### Reduction of `MGet` to the miss-fill stage -/

theorem cacheMGet_reduce (c : CacheM) (pfx : GoStr) (keys : List GoStr)
    (cfg : Config) (cacheVals : List Value)
    (hcfg : alookup c.configs pfx = some cfg) (hk : keys ≠ [])
    (hload : (load c.reg cfg
      (getCacheKeys c.regPkgKey pfx (dedup keys).2)).1 = Except.ok cacheVals)
    (hmiss : mgetMissKeys (dedup keys).2 cacheVals ≠ []) :
    (cacheMGet c pfx keys).1 =
      (mgetFill c cfg pfx (dedup keys).2
        (mgetMissKeys (dedup keys).2 cacheVals)
        ⟨(dedup keys).1,
         (hitMissSlots cacheVals (dedup keys).2.length).1,
         (hitMissSlots cacheVals (dedup keys).2.length).2,
         cfg.unmarshal⟩).1 := by
  simp only [cacheMGet, hcfg]
  rw [if_neg hk]
  rw [hload]
  dsimp only
  rw [if_neg hmiss]

theorem mgetFill_getter_error (c : CacheM) (cfg : Config) (pfx : GoStr)
    (dKeys missKeys : List GoStr) (res1 : ResultR)
    (g : List GoStr → GoAny × Option Err) (e : Err)
    (hmg : cfg.mGetter = some g) (hge : (g missKeys).2 = some e) :
    (mgetFill c cfg pfx dKeys missKeys res1).1 = Except.error e := by
  unfold mgetFill
  rw [hmg]
  dsimp only
  rw [hge]

theorem mgetFill_notSlice (c : CacheM) (cfg : Config) (pfx : GoStr)
    (dKeys missKeys : List GoStr) (res1 : ResultR)
    (g : List GoStr → GoAny × Option Err) (v : IVal)
    (hmg : cfg.mGetter = some g) (hg2 : (g missKeys).2 = none)
    (hg1 : (g missKeys).1 = GoAny.nonSlice v) :
    (mgetFill c cfg pfx dKeys missKeys res1).1 =
      Except.error Err.mGetterResponseNotSlice := by
  unfold mgetFill
  rw [hmg]
  dsimp only
  rw [hg2]
  dsimp only
  rw [hg1]

theorem mgetFill_lengthInvalid (c : CacheM) (cfg : Config) (pfx : GoStr)
    (dKeys missKeys : List GoStr) (res1 : ResultR)
    (g : List GoStr → GoAny × Option Err) (xs : List IVal)
    (hmg : cfg.mGetter = some g) (hg2 : (g missKeys).2 = none)
    (hg1 : (g missKeys).1 = GoAny.slice xs)
    (hxlen : xs.length ≠ missKeys.length) :
    (mgetFill c cfg pfx dKeys missKeys res1).1 =
      Except.error Err.mGetterResponseLengthInvalid := by
  unfold mgetFill
  rw [hmg]
  dsimp only
  rw [hg2]
  dsimp only
  rw [hg1]
  dsimp only
  rw [if_pos hxlen]

theorem mgetFill_slice_ok (c : CacheM) (cfg : Config) (pfx : GoStr)
    (dKeys missKeys : List GoStr) (res1 : ResultR)
    (g : List GoStr → GoAny × Option Err) (xs : List IVal)
    (hmg : cfg.mGetter = some g) (hg2 : (g missKeys).2 = none)
    (hg1 : (g missKeys).1 = GoAny.slice xs)
    (hxlen : xs.length = missKeys.length) :
    (mgetFill c cfg pfx dKeys missKeys res1).1 =
      Except.ok (fillMiss cfg.marshal c.regPkgKey pfx (getKeyIndex dKeys)
        (missKeys.zip xs) [] res1).2 := by
  unfold mgetFill
  rw [hmg]
  dsimp only
  rw [hg2]
  dsimp only
  rw [hg1]
  dsimp only
  rw [if_neg (fun h => h hxlen)]

/-! ### Claim C3 -/

/-- C3: when `MGet` reaches its configured `mGetter` on a non-empty miss
set, an `mGetter` error fails the whole call with that error, a
non-slice result fails it with `MGetterResponseNotSlice`, and a slice of
the wrong length fails it with `MGetterResponseLengthInvalid`. -/
theorem C3_mgetter_contract (c : CacheM) (pfx : GoStr) (keys : List GoStr)
    (cfg : Config) (g : List GoStr → GoAny × Option Err)
    (cacheVals : List Value) (missKeys : List GoStr)
    (hcfg : alookup c.configs pfx = some cfg) (hk : keys ≠ [])
    (hload : (load c.reg cfg
      (getCacheKeys c.regPkgKey pfx (dedup keys).2)).1 = Except.ok cacheVals)
    (hM : missKeys = mgetMissKeys (dedup keys).2 cacheVals)
    (hmiss : missKeys ≠ []) (hmg : cfg.mGetter = some g) :
    (∀ e, (g missKeys).2 = some e →
      (cacheMGet c pfx keys).1 = Except.error e) ∧
    (∀ v, (g missKeys).2 = none → (g missKeys).1 = GoAny.nonSlice v →
      (cacheMGet c pfx keys).1 =
        Except.error Err.mGetterResponseNotSlice) ∧
    (∀ xs, (g missKeys).2 = none → (g missKeys).1 = GoAny.slice xs →
      xs.length ≠ missKeys.length →
      (cacheMGet c pfx keys).1 =
        Except.error Err.mGetterResponseLengthInvalid) := by
  subst hM
  have hred := cacheMGet_reduce c pfx keys cfg cacheVals hcfg hk hload hmiss
  refine ⟨?_, ?_, ?_⟩
  · intro e hge
    rw [hred]
    exact mgetFill_getter_error _ _ _ _ _ _ g e hmg hge
  · intro v hg2 hg1
    rw [hred]
    exact mgetFill_notSlice _ _ _ _ _ _ g v hmg hg2 hg1
  · intro xs hg2 hg1 hxlen
    rw [hred]
    exact mgetFill_lengthInvalid _ _ _ _ _ _ g xs hmg hg2 hg1 hxlen

/-- Witness for C3: a failing mGetter makes the whole `MGet` fail with
its error. -/
theorem C3_mgetter_contract_witness :
    (cacheMGet cacheMG ['p'] [['k']]).1 =
      Except.error (Err.transport 9) :=
  (C3_mgetter_contract cacheMG ['p'] [['k']] cfgGErr gErr [Value.zero]
    [['k']] rfl (by decide) rfl rfl (by decide) rfl).1
    (Err.transport 9) rfl

/-! ### Claim C7 -/

theorem fillMiss_internalIdx (marshal : IVal → Except Err Bytes)
    (pkg pfx : GoStr) (keyIdx : List (GoStr × Nat)) :
    ∀ (pairs : List (GoStr × IVal)) (m : List (GoStr × Bytes))
      (res : ResultR),
    (fillMiss marshal pkg pfx keyIdx pairs m res).2.internalIdx =
      res.internalIdx := by
  intro pairs
  induction pairs with
  | nil => intro m res; rfl
  | cons p pt ih =>
    intro m res
    obtain ⟨mk, v⟩ := p
    cases hm : marshal v with
    | error e =>
      simp only [fillMiss, hm]
      exact ih _ _
    | ok b =>
      simp only [fillMiss, hm]
      exact ih _ _

theorem mgetFill_ok_internalIdx (c : CacheM) (cfg : Config) (pfx : GoStr)
    (dKeys missKeys : List GoStr) (res1 : ResultR) (r : ResultR)
    (h : (mgetFill c cfg pfx dKeys missKeys res1).1 = Except.ok r) :
    r.internalIdx = res1.internalIdx := by
  unfold mgetFill at h
  cases hmg : cfg.mGetter with
  | none =>
    rw [hmg] at h
    dsimp only at h
    injection h with h
    subst h
    rfl
  | some g =>
    rw [hmg] at h
    dsimp only at h
    cases hg2 : (g missKeys).2 with
    | some e =>
      rw [hg2] at h
      simp at h
    | none =>
      rw [hg2] at h
      dsimp only at h
      cases hg1 : (g missKeys).1 with
      | nonSlice v =>
        rw [hg1] at h
        simp at h
      | slice xs =>
        rw [hg1] at h
        dsimp only at h
        split at h
        · simp at h
        · dsimp only at h
          injection h with h
          subst h
          exact fillMiss_internalIdx _ _ _ _ _ _ _

theorem cacheMGet_ok_internalIdx (c : CacheM) (pfx : GoStr)
    (keys : List GoStr) (r : ResultR)
    (hok : (cacheMGet c pfx keys).1 = Except.ok r) :
    r.internalIdx = (dedup keys).1 := by
  unfold cacheMGet at hok
  cases hcfg : alookup c.configs pfx with
  | none =>
    rw [hcfg] at hok
    simp at hok
  | some cfg =>
    rw [hcfg] at hok
    dsimp only at hok
    by_cases hk : keys = []
    · subst hk
      rw [if_pos rfl] at hok
      injection hok with h
      subst h
      rfl
    · rw [if_neg hk] at hok
      cases hload : (load c.reg cfg
          (getCacheKeys c.regPkgKey pfx (dedup keys).2)).1 with
      | error e =>
        rw [hload] at hok
        simp at hok
      | ok cacheVals =>
        rw [hload] at hok
        dsimp only at hok
        by_cases hm : mgetMissKeys (dedup keys).2 cacheVals = []
        · rw [if_pos hm] at hok
          dsimp only at hok
          injection hok with h
          subst h
          rfl
        · rw [if_neg hm] at hok
          dsimp only at hok
          exact mgetFill_ok_internalIdx _ _ _ _ _ _ _ hok

/-- C7: every `Result` returned by `MGet` has `Len()` equal to the number
of user-supplied keys (duplicates preserved); `Get` with a negative or
too-large index returns `ResultIndexInvalid`, and an in-range index
routes through the internal index map to the error-or-value slot at the
position of the first occurrence of that key. -/
theorem C7_result_contract (c : CacheM) (pfx : GoStr) (keys : List GoStr)
    (r : ResultR) (hok : (cacheMGet c pfx keys).1 = Except.ok r) :
    resultLen r = keys.length ∧
    (∀ i : Int, (i < 0 ∨ (keys.length : Int) ≤ i) →
      resultGet r i = Except.error Err.resultIndexInvalid) ∧
    (∀ i : Nat, i < keys.length →
      r.internalIdx.get? i =
        idxOf? (firstOccur keys) (keys.getD i []) ∧
      resultGet r (i : Int) =
        (match r.errs.getD
            ((idxOf? (firstOccur keys) (keys.getD i [])).getD 0) none with
         | some e => Except.error e
         | none => r.unmarshal (r.vals.getD
            ((idxOf? (firstOccur keys) (keys.getD i [])).getD 0) []))) := by
  have hidx : r.internalIdx = (dedup keys).1 :=
    cacheMGet_ok_internalIdx c pfx keys r hok
  have hlen : resultLen r = keys.length := by
    rw [resultLen, hidx, dedup_fst_length]
  refine ⟨hlen, ?_, ?_⟩
  · intro i hi
    rw [resultGet, if_pos]
    rw [hlen]
    exact hi
  · intro i hi
    have hget : r.internalIdx.get? i =
        idxOf? (firstOccur keys) (keys.getD i []) := by
      rw [hidx]
      exact dedup_fst_get? keys i hi
    refine ⟨hget, ?_⟩
    rw [resultGet, if_neg]
    · have ht : ((i : Int)).toNat = i := Int.toNat_ofNat i
      rw [ht, hget]
    · rw [hlen]
      intro h
      rcases h with h | h
      · omega
      · omega

/-- Witness for C7: the one-key miss result has length 1 and its slot
carries the cache-miss error. -/
theorem C7_result_contract_witness :
    resultLen r0 = [['k']].length :=
  (C7_result_contract cacheM0 ['p'] [['k']] r0 rfl).1

/-! ### Claim C4: the miss-fill loop -/

theorem fillMiss_m_mono (marshal : IVal → Except Err Bytes)
    (pkg pfx : GoStr) (keyIdx : List (GoStr × Nat)) :
    ∀ (pairs : List (GoStr × IVal)) (m : List (GoStr × Bytes))
      (res : ResultR) (x : GoStr × Bytes), x ∈ m →
      x ∈ (fillMiss marshal pkg pfx keyIdx pairs m res).1 := by
  intro pairs
  induction pairs with
  | nil => intro m res x hx; exact hx
  | cons p pt ih =>
    intro m res x hx
    obtain ⟨mk, v⟩ := p
    cases hm : marshal v with
    | error e =>
      simp only [fillMiss, hm]
      exact ih _ _ x hx
    | ok b =>
      simp only [fillMiss, hm]
      exact ih _ _ x (List.mem_append.mpr (Or.inl hx))

theorem fillMiss_frame (marshal : IVal → Except Err Bytes)
    (pkg pfx : GoStr) (keyIdx : List (GoStr × Nat)) :
    ∀ (pairs : List (GoStr × IVal)) (m : List (GoStr × Bytes))
      (res : ResultR) (j : Nat),
    (∀ q ∈ pairs, (alookup keyIdx q.1).getD 0 ≠ j) →
    ((fillMiss marshal pkg pfx keyIdx pairs m res).2.errs.get? j =
      res.errs.get? j) ∧
    ((fillMiss marshal pkg pfx keyIdx pairs m res).2.vals.get? j =
      res.vals.get? j) := by
  intro pairs
  induction pairs with
  | nil => intro m res j _; exact ⟨rfl, rfl⟩
  | cons p pt ih =>
    intro m res j hj
    obtain ⟨mk, v⟩ := p
    have hhead : (alookup keyIdx mk).getD 0 ≠ j :=
      hj (mk, v) (List.mem_cons_self _ _)
    have htail : ∀ q ∈ pt, (alookup keyIdx q.1).getD 0 ≠ j :=
      fun q hq => hj q (List.mem_cons_of_mem _ hq)
    cases hm : marshal v with
    | error e =>
      simp only [fillMiss, hm]
      obtain ⟨h1, h2⟩ := ih _ _ j htail
      rw [h1, h2]
      exact ⟨List.get?_set_ne _ _ hhead, rfl⟩
    | ok b =>
      simp only [fillMiss, hm]
      obtain ⟨h1, h2⟩ := ih _ _ j htail
      rw [h1, h2]
      exact ⟨List.get?_set_ne _ _ hhead, List.get?_set_ne _ _ hhead⟩

theorem fillMiss_mem_spec (marshal : IVal → Except Err Bytes)
    (pkg pfx : GoStr) (keyIdx : List (GoStr × Nat)) :
    ∀ (pairs : List (GoStr × IVal)) (m : List (GoStr × Bytes))
      (res : ResultR),
    ((pairs.map (fun q => (alookup keyIdx q.1).getD 0)).Nodup) →
    (∀ q ∈ pairs, (alookup keyIdx q.1).getD 0 < res.errs.length) →
    (∀ q ∈ pairs, (alookup keyIdx q.1).getD 0 < res.vals.length) →
    ∀ q ∈ pairs,
      (∀ e, marshal q.2 = Except.error e →
        (fillMiss marshal pkg pfx keyIdx pairs m res).2.errs.get?
          ((alookup keyIdx q.1).getD 0) = some (some e)) ∧
      (∀ b, marshal q.2 = Except.ok b →
        (fillMiss marshal pkg pfx keyIdx pairs m res).2.vals.get?
          ((alookup keyIdx q.1).getD 0) = some b ∧
        (fillMiss marshal pkg pfx keyIdx pairs m res).2.errs.get?
          ((alookup keyIdx q.1).getD 0) = some none ∧
        (getCacheKey pkg pfx q.1, b) ∈
          (fillMiss marshal pkg pfx keyIdx pairs m res).1) := by
  intro pairs
  induction pairs with
  | nil =>
    intro m res _ _ _ q hq
    exact absurd hq (List.not_mem_nil q)
  | cons p pt ih =>
    intro m res hnd hbe hbv q hq
    obtain ⟨mk, v⟩ := p
    have hndt : (pt.map (fun q => (alookup keyIdx q.1).getD 0)).Nodup :=
      (List.nodup_cons.mp hnd).2
    have hhead : ∀ q' ∈ pt, (alookup keyIdx q'.1).getD 0 ≠
        (alookup keyIdx mk).getD 0 := by
      intro q' hq' heq
      have hmem : (alookup keyIdx q'.1).getD 0 ∈
          pt.map (fun q => (alookup keyIdx q.1).getD 0) :=
        List.mem_map_of_mem _ hq'
      rw [heq] at hmem
      exact (List.nodup_cons.mp hnd).1 hmem
    have hjb : (alookup keyIdx mk).getD 0 < res.errs.length :=
      hbe (mk, v) (List.mem_cons_self _ _)
    have hjv : (alookup keyIdx mk).getD 0 < res.vals.length :=
      hbv (mk, v) (List.mem_cons_self _ _)
    rcases List.mem_cons.mp hq with rfl | hq'
    · dsimp only
      refine ⟨?_, ?_⟩
      · intro e hm
        simp only [fillMiss, hm]
        have hframe := (fillMiss_frame marshal pkg pfx keyIdx pt m
          { res with errs :=
              res.errs.set ((alookup keyIdx mk).getD 0) (some e) }
          ((alookup keyIdx mk).getD 0) hhead).1
        rw [hframe]
        dsimp only
        rw [List.get?_set_eq_of_lt _ hjb]
      · intro b hm
        simp only [fillMiss, hm]
        obtain ⟨hf1, hf2⟩ := fillMiss_frame marshal pkg pfx keyIdx pt
          (m ++ [(getCacheKey pkg pfx mk, b)])
          { res with
              vals := res.vals.set ((alookup keyIdx mk).getD 0) b,
              errs := res.errs.set ((alookup keyIdx mk).getD 0) none }
          ((alookup keyIdx mk).getD 0) hhead
        refine ⟨?_, ?_, ?_⟩
        · rw [hf2]
          dsimp only
          rw [List.get?_set_eq_of_lt _ hjv]
        · rw [hf1]
          dsimp only
          rw [List.get?_set_eq_of_lt _ hjb]
        · exact fillMiss_m_mono marshal pkg pfx keyIdx pt
            (m ++ [(getCacheKey pkg pfx mk, b)])
            { res with
                vals := res.vals.set ((alookup keyIdx mk).getD 0) b,
                errs := res.errs.set ((alookup keyIdx mk).getD 0) none }
            (getCacheKey pkg pfx mk, b)
            (List.mem_append.mpr (Or.inr (List.mem_singleton.mpr rfl)))
    · cases hm : marshal v with
      | error e =>
        simp only [fillMiss, hm]
        refine ih _ _ hndt ?_ ?_ q hq'
        · intro q' hq'2
          have := hbe q' (List.mem_cons_of_mem _ hq'2)
          simpa [List.length_set] using this
        · intro q' hq'2
          exact hbv q' (List.mem_cons_of_mem _ hq'2)
      | ok b =>
        simp only [fillMiss, hm]
        refine ih _ _ hndt ?_ ?_ q hq'
        · intro q' hq'2
          have := hbe q' (List.mem_cons_of_mem _ hq'2)
          simpa [List.length_set] using this
        · intro q' hq'2
          have := hbv q' (List.mem_cons_of_mem _ hq'2)
          simpa [List.length_set] using this

theorem dedup_snd_nodup (keys : List GoStr) : (dedup keys).2.Nodup := by
  rw [dedup_eq]
  exact nodup_firstOccur keys

theorem mgetMissKeys_sublist (dKeys : List GoStr) (cv : List Value) :
    (mgetMissKeys dKeys cv).Sublist dKeys := by
  unfold mgetMissKeys
  have h1 : (dKeys.enum.filter
      (fun p => !(cv.getD p.1 Value.zero).valid)).Sublist dKeys.enum :=
    List.filter_sublist _
  have h2 := h1.map Prod.snd
  rwa [List.enum_map_snd] at h2

theorem hitMissSlots_len (cv : List Value) (n : Nat) :
    (hitMissSlots cv n).1.length = n ∧ (hitMissSlots cv n).2.length = n := by
  simp [hitMissSlots]

/-- C4: in `MGet`'s miss-fill, a miss position whose mGetter value fails
to marshal gets that marshal error in its result slot and processing
continues; every position whose value marshals gets its bytes recorded
in its result slot, its error cleared, and its qualified key included in
the refill map; and the subsequent refill's error is not surfaced —
`MGet` still returns the filled result, whatever the tiers do. -/
theorem C4_missfill_per_element (c : CacheM) (pfx : GoStr)
    (keys : List GoStr) (cfg : Config)
    (g : List GoStr → GoAny × Option Err) (cacheVals : List Value)
    (xs : List IVal) (missKeys : List GoStr) (res1 : ResultR)
    (hcfg : alookup c.configs pfx = some cfg) (hk : keys ≠ [])
    (hload : (load c.reg cfg
      (getCacheKeys c.regPkgKey pfx (dedup keys).2)).1 =
        Except.ok cacheVals)
    (hM : missKeys = mgetMissKeys (dedup keys).2 cacheVals)
    (hmiss : missKeys ≠ [])
    (hres : res1 = ⟨(dedup keys).1,
      (hitMissSlots cacheVals (dedup keys).2.length).1,
      (hitMissSlots cacheVals (dedup keys).2.length).2, cfg.unmarshal⟩)
    (hmg : cfg.mGetter = some g)
    (hg2 : (g missKeys).2 = none)
    (hg1 : (g missKeys).1 = GoAny.slice xs)
    (hxlen : xs.length = missKeys.length) :
    (cacheMGet c pfx keys).1 = Except.ok
      (fillMiss cfg.marshal c.regPkgKey pfx (getKeyIndex (dedup keys).2)
        (missKeys.zip xs) [] res1).2 ∧
    (∀ q ∈ missKeys.zip xs,
      (∀ e, cfg.marshal q.2 = Except.error e →
        (fillMiss cfg.marshal c.regPkgKey pfx
          (getKeyIndex (dedup keys).2) (missKeys.zip xs) []
          res1).2.errs.get?
            ((alookup (getKeyIndex (dedup keys).2) q.1).getD 0) =
          some (some e)) ∧
      (∀ b, cfg.marshal q.2 = Except.ok b →
        (fillMiss cfg.marshal c.regPkgKey pfx
          (getKeyIndex (dedup keys).2) (missKeys.zip xs) []
          res1).2.vals.get?
            ((alookup (getKeyIndex (dedup keys).2) q.1).getD 0) =
          some b ∧
        (fillMiss cfg.marshal c.regPkgKey pfx
          (getKeyIndex (dedup keys).2) (missKeys.zip xs) []
          res1).2.errs.get?
            ((alookup (getKeyIndex (dedup keys).2) q.1).getD 0) =
          some none ∧
        (getCacheKey c.regPkgKey pfx q.1, b) ∈
          (fillMiss cfg.marshal c.regPkgKey pfx
            (getKeyIndex (dedup keys).2) (missKeys.zip xs) []
            res1).1)) := by
  subst hM
  subst hres
  have hdnodup : (dedup keys).2.Nodup := dedup_snd_nodup keys
  have hsub : (mgetMissKeys (dedup keys).2 cacheVals).Sublist
      (dedup keys).2 := mgetMissKeys_sublist (dedup keys).2 cacheVals
  have hmknodup : (mgetMissKeys (dedup keys).2 cacheVals).Nodup :=
    hsub.nodup hdnodup
  have hslot : ∀ mk ∈ mgetMissKeys (dedup keys).2 cacheVals, ∃ j,
      idxOf? (dedup keys).2 mk = some j ∧
      alookup (getKeyIndex (dedup keys).2) mk = some j ∧
      j < (dedup keys).2.length := by
    intro mk hmk
    have hmem : mk ∈ (dedup keys).2 := hsub.subset hmk
    obtain ⟨j, hj⟩ := idxOf?_isSome_of_mem hmem
    refine ⟨j, hj, ?_, idxOf?_lt_length hj⟩
    rw [alookup_getKeyIndex hdnodup]
    exact hj
  have hfst : ((mgetMissKeys (dedup keys).2 cacheVals).zip xs).map
      Prod.fst = mgetMissKeys (dedup keys).2 cacheVals :=
    List.map_fst_zip _ xs (by omega)
  have hmapeq : (((mgetMissKeys (dedup keys).2 cacheVals).zip xs).map
      (fun q => (alookup (getKeyIndex (dedup keys).2) q.1).getD 0)) =
      ((mgetMissKeys (dedup keys).2 cacheVals).map
        (fun mk => (alookup (getKeyIndex (dedup keys).2) mk).getD 0)) := by
    conv_rhs => rw [← hfst]
    rw [List.map_map]
    rfl
  have hnd : ((((mgetMissKeys (dedup keys).2 cacheVals).zip xs)).map
      (fun q => (alookup (getKeyIndex (dedup keys).2) q.1).getD 0)).Nodup := by
    rw [hmapeq]
    refine List.Nodup.map_on ?_ hmknodup
    intro x hx y hy hxy
    obtain ⟨jx, hjx, hax, _⟩ := hslot x hx
    obtain ⟨jy, hjy, hay, _⟩ := hslot y hy
    rw [hax, hay] at hxy
    simp at hxy
    subst hxy
    exact idxOf?_injective hjx hjy
  have hbe : ∀ q ∈ (mgetMissKeys (dedup keys).2 cacheVals).zip xs,
      (alookup (getKeyIndex (dedup keys).2) q.1).getD 0 <
        ((hitMissSlots cacheVals (dedup keys).2.length).2).length := by
    intro q hq
    have hq1 : q.1 ∈ mgetMissKeys (dedup keys).2 cacheVals := by
      rw [← hfst]
      exact List.mem_map_of_mem Prod.fst hq
    obtain ⟨j, _, haj, hjlt⟩ := hslot q.1 hq1
    rw [haj]
    simpa [(hitMissSlots_len cacheVals (dedup keys).2.length).2] using hjlt
  have hbv : ∀ q ∈ (mgetMissKeys (dedup keys).2 cacheVals).zip xs,
      (alookup (getKeyIndex (dedup keys).2) q.1).getD 0 <
        ((hitMissSlots cacheVals (dedup keys).2.length).1).length := by
    intro q hq
    have hq1 : q.1 ∈ mgetMissKeys (dedup keys).2 cacheVals := by
      rw [← hfst]
      exact List.mem_map_of_mem Prod.fst hq
    obtain ⟨j, _, haj, hjlt⟩ := hslot q.1 hq1
    rw [haj]
    simpa [(hitMissSlots_len cacheVals (dedup keys).2.length).1] using hjlt
  constructor
  · rw [cacheMGet_reduce c pfx keys cfg cacheVals hcfg hk hload hmiss]
    exact mgetFill_slice_ok _ _ _ _ _ _ g xs hmg hg2 hg1 hxlen
  · intro q hq
    exact fillMiss_mem_spec cfg.marshal c.regPkgKey pfx
      (getKeyIndex (dedup keys).2) _ [] _ hnd hbe hbv q hq

/-- Witness for C4: mGetter answers `[5, 7]` for the two miss keys, the
marshal fails on `7`, and the second slot ends up holding precisely that
marshal error. -/
theorem C4_missfill_per_element_witness :
    fillC4.2.errs.get?
      ((alookup (getKeyIndex dkC4) (['b'] : GoStr)).getD 0) =
      some (some (Err.marshalFail 7)) :=
  ((C4_missfill_per_element cacheMF ['p'] [['a'], ['b']] cfgFill gTwo
      cvC4 [5, 7] (mgetMissKeys dkC4 cvC4) resC4 rfl (by decide) rfl rfl
      (by decide) rfl rfl rfl rfl rfl).2 (['b'], 7) (by decide)).1
    (Err.marshalFail 7) rfl

end GoCache
